import Mathlib

/-!
Verification of the PLTL trace evaluator of this repository
(`NL2LTL_PHASE2/SySLite2/src/edu/uiowa/parser/Tracer.py`) against its
natural-language specification.  The evaluator is embedded shallowly:
the mutable `loop` flag of the Python `Trace` object becomes an explicit
state parameter that every evaluation function takes and returns, and
Python exceptions (KeyError on truth-table lookups, errors during trace
construction) become `Option`.
-/

namespace Tracer

/-- Formula AST.  Modelled from the spec: the file `Formula.py` defining
`PLTLFormula` is not present under `src/`; the spec (sections 3 and 4.1)
describes it as a binary tree whose node label is drawn from the closed set
`TRUE`, `FALSE`, atomic proposition name, `!`, `&`, `|`, `=>`, `X`, `U`,
`F`, `G`, `Y`, `O`, `H`, `S`, with children matching the label arity and
atomic propositions as leaves.  Constructor `nt` is the label `!`, `andf`
is `&`, `orf` is `|`, `impf` is `=>`. -/
inductive PLTLFormula : Type where
  | TRUE : PLTLFormula
  | FALSE : PLTLFormula
  | atom : String → PLTLFormula
  | nt : PLTLFormula → PLTLFormula
  | andf : PLTLFormula → PLTLFormula → PLTLFormula
  | orf : PLTLFormula → PLTLFormula → PLTLFormula
  | impf : PLTLFormula → PLTLFormula → PLTLFormula
  | X : PLTLFormula → PLTLFormula
  | U : PLTLFormula → PLTLFormula → PLTLFormula
  | F : PLTLFormula → PLTLFormula
  | G : PLTLFormula → PLTLFormula
  | Y : PLTLFormula → PLTLFormula
  | O : PLTLFormula → PLTLFormula
  | H : PLTLFormula → PLTLFormula
  | S : PLTLFormula → PLTLFormula → PLTLFormula
deriving DecidableEq

/-- Trace, mirroring the fields that `Trace.__init__` in `Tracer.py` stores:
`traceVector` (one list of booleans per time step), `lasso` (the loop-back
index, a nonnegative integer in every constructible trace), `literals` (the
declared atomic-proposition names, positional), and `Id`.  The mutable
field `self.loop` is not a field here: it is threaded explicitly through
the evaluation functions below. -/
structure Trace : Type where
  traceVector : List (List Bool)
  lasso : Nat
  literals : List String
  Id : String
deriving DecidableEq

/-- Mirrors `self.traceLength = len(self.traceVector)` in `Trace.__init__`. -/
def Trace.traceLength (tr : Trace) : Nat := tr.traceVector.length

/-- Mirrors `self.vars = len(self.traceVector[0])` in `Trace.__init__`. -/
def Trace.vars (tr : Trace) : Nat := (tr.traceVector.headD []).length

/-- Mirrors `Trace.pre`: `-1` for position `0`, otherwise `pos - 1`. -/
def pre (pos : Nat) : Int :=
  if pos = 0 then -1 else (pos : Int) - 1

/-- Mirrors `Trace.next` in `Tracer.py`.  The Python method reads and
writes `self.loop`; here the flag is the second argument and the second
component of the result: `if pos < traceLength - 1: return pos + 1`,
`elif not loop: loop = True; return lasso`, `else: return -1`. -/
def Trace.next (tr : Trace) (pos : Nat) (loop : Bool) : Int × Bool :=
  if pos < tr.traceLength - 1 then ((pos : Int) + 1, loop)
  else if loop = false then ((tr.lasso : Int), true)
  else (-1, loop)

/-- Mirrors `Trace.next1` in `Tracer.py`: `pos + 1` below the last index,
otherwise the lasso index, with no loop-flag guard. -/
def Trace.next1 (tr : Trace) (pos : Nat) : Int :=
  if pos < tr.traceLength - 1 then (pos : Int) + 1 else (tr.lasso : Int)

/-- The `(literal, timestep) := value` entries of the truth table that
`Trace.__init__` builds: `for t in range(traceLength): for v in
range(vars): table[literals[v], t] = traceVector[t][v]`.  Entries are kept
in insertion order; a later entry for the same key overwrites an earlier
one, which `Trace.table` below realises by taking the last match. -/
def Trace.tableEntries (tr : Trace) : List ((String × Nat) × Bool) :=
  (List.range tr.traceLength).flatMap fun t =>
    (List.range tr.vars).filterMap fun v =>
      match tr.literals.get? v, (tr.traceVector.get? t).bind (fun row => row.get? v) with
      | some name, some b => some ((name, t), b)
      | _, _ => none

/-- Lookup `self.table[p, t]`; `none` models the Python `KeyError` raised
when the key is absent from the dictionary. -/
def Trace.table (tr : Trace) (p : String) (t : Nat) : Option Bool :=
  ((tr.tableEntries.filter (fun e => e.1 == (p, t))).getLast?).map (fun e => e.2)

/-- Weight of a formula, the first component of the termination measure of
`Trace.truthValue`.  The `F` and `G` cases of the evaluator rewrite the
formula into `U TRUE f` and `nt (F (nt f))` respectively, so their weights
are padded to dominate the weights of those rewrites. -/
def wt : PLTLFormula → Nat
  | .TRUE => 1
  | .FALSE => 1
  | .atom _ => 1
  | .nt f => wt f + 1
  | .andf l r => wt l + wt r + 1
  | .orf l r => wt l + wt r + 1
  | .impf l r => wt l + wt r + 1
  | .X f => wt f + 1
  | .U l r => wt l + wt r + 1
  | .F f => wt f + 4
  | .G f => wt f + 10
  | .Y f => wt f + 1
  | .O f => wt f + 1
  | .H f => wt f + 1
  | .S l r => wt l + wt r + 1

/-- Second component of the termination measure of `Trace.truthValue`:
past operators recurse on a strictly smaller index, and `U` recurses on the
successor returned by `Trace.next`, which can only step rightwards, jump
once through the lasso (setting the flag), and then step rightwards again
before hitting the `-1` sentinel. -/
def evalMeasure (tr : Trace) (f : PLTLFormula) (i : Nat) (s : Bool) : Nat :=
  match f with
  | .U _ _ => (if s then 0 else tr.traceLength - tr.lasso + 1) + (tr.traceLength - 1 - i)
  | .O _ => i
  | .H _ => i
  | .S _ _ => i
  | _ => 0

/-- Mirrors `Trace.truthValue(f, i)` in `Tracer.py`, case by case in the
order of the Python dispatch on `f.label`.  The loop flag `s` is the
explicit state (`self.loop` in Python); the result pairs the returned
boolean with the flag after the call, and `none` models an escaping
exception (a `KeyError` from an unknown table key).  In the `U` case the
state passed to `Trace.next` is written `s || s2` where the Python code
reads the current flag `s2`: the flag is only ever set, never cleared,
during evaluation (lemma `truthValue_loop_mono` below proves
`s || s2 = s2`), and this spelling makes the termination measure decrease
structurally. -/
def Trace.truthValue (tr : Trace) (f : PLTLFormula) (i : Nat) (s : Bool) :
    Option (Bool × Bool) :=
  match f with
  | .O g =>
    match tr.truthValue g i s with
    | none => none
    | some (v, s1) =>
      if h : 0 < i then
        match tr.truthValue (.O g) (pre i).toNat s1 with
        | none => none
        | some (ov, s2) => some (v || ov, s2)
      else some (v, s1)
  | .H g =>
    match tr.truthValue g i s with
    | none => none
    | some (v, s1) =>
      if h : 0 < i then
        match tr.truthValue (.H g) (pre i).toNat s1 with
        | none => none
        | some (hv, s2) => some (v && hv, s2)
      else some (v, s1)
  | .nt g =>
    match tr.truthValue g i s with
    | none => none
    | some (v, s1) => some (!v, s1)
  | .Y g =>
    if h : 0 < i then tr.truthValue g (pre i).toNat s
    else some (false, s)
  | .S a b =>
    match tr.truthValue b i s with
    | none => none
    | some (gv, s1) =>
      if h : 0 < i then
        match tr.truthValue a i s1 with
        | none => none
        | some (v, s2) =>
          match tr.truthValue (.S a b) (pre i).toNat s2 with
          | none => none
          | some (sv, s3) => some (gv || (v && sv), s3)
      else some (gv, s1)
  | .X g =>
    let nindex := tr.next1 i
    if nindex = -1 then some (false, s)
    else tr.truthValue g nindex.toNat s
  | .U a b =>
    match tr.truthValue a i s with
    | none => none
    | some (va, s1) =>
      match tr.truthValue b i s1 with
      | none => none
      | some (vb, s2) =>
        if vb then some (true, s2)
        else if va && !vb then
          let nindex := (tr.next i (s || s2)).1
          let s3 := (tr.next i (s || s2)).2
          if h : nindex = -1 then some (false, s3)
          else tr.truthValue (.U a b) nindex.toNat s3
        else some (false, s2)
  | .F g => tr.truthValue (.U .TRUE g) i s
  | .G g => tr.truthValue (.nt (.F (.nt g))) i s
  | .andf a b =>
    match tr.truthValue a i s with
    | none => none
    | some (lv, s1) =>
      match tr.truthValue b i s1 with
      | none => none
      | some (rv, s2) => some (lv && rv, s2)
  | .impf a b =>
    match tr.truthValue a i s with
    | none => none
    | some (lv, s1) =>
      match tr.truthValue b i s1 with
      | none => none
      | some (rv, s2) => some (!lv || rv, s2)
  | .orf a b =>
    match tr.truthValue a i s with
    | none => none
    | some (lv, s1) =>
      match tr.truthValue b i s1 with
      | none => none
      | some (rv, s2) => some (lv || rv, s2)
  | .TRUE => some (true, s)
  | .FALSE => some (false, s)
  | .atom p =>
    match tr.table p i with
    | none => none
    | some b => some (b, s)
termination_by (wt f, evalMeasure tr f i s)
decreasing_by
  all_goals first
  | exact Prod.Lex.left _ _ (by simp only [wt]; omega)
  | (apply Prod.Lex.right
     simp only [evalMeasure, pre]
     split <;> omega)
  | (apply Prod.Lex.right
     have h2 : ¬(tr.next i (s || s2)).1 = -1 := h
     clear h
     simp only [evalMeasure]
     rcases hn : tr.next i (s || s2) with ⟨n2, s4⟩
     rw [hn] at h2
     simp only [Trace.next] at hn
     split at hn
     · injection hn with hn1 hn2
       subst hn1
       subst hn2
       cases s <;> cases s2 <;> simp_all <;> omega
     · split at hn
       · injection hn with hn1 hn2
         subst hn1
         subst hn2
         cases s <;> cases s2 <;> simp_all <;> omega
       · injection hn with hn1 hn2
         subst hn1
         simp at h2)

/-- Mirrors `Trace.check_truth(f)`: iterate the indices `0, ..., traceLength - 1`
in order, returning `False` at the first index whose truth value is falsy and
`True` otherwise.  The loop flag is threaded through the per-index calls and
is NOT reset (only `check_truth1` resets it); the returned pair carries the
flag after the call.  `checkFrom` is the loop body over the remaining index
list. -/
def Trace.checkFrom (tr : Trace) (f : PLTLFormula) : List Nat → Bool → Option (Bool × Bool)
  | [], s => some (true, s)
  | i :: rest, s =>
    match tr.truthValue f i s with
    | none => none
    | some (v, s1) => if !v then some (false, s1) else tr.checkFrom f rest s1

/-- Mirrors `Trace.check_truth(f)` in `Tracer.py` (see `Trace.checkFrom`). -/
def Trace.check_truth (tr : Trace) (f : PLTLFormula) (s : Bool) : Option (Bool × Bool) :=
  tr.checkFrom f (List.range tr.traceLength) s

/-- Mirrors `Trace.check_truth1(f)` in `Tracer.py`: reset the loop flag
(`self.loop = False`), then evaluate at index `0`.  The incoming flag is
ignored. -/
def Trace.check_truth1 (tr : Trace) (f : PLTLFormula) (_s : Bool) : Option (Bool × Bool) :=
  tr.truthValue f 0 false

/-- Sequencing helper for the fuel-indexed evaluator `evalF`: the outer
`Option` layer is fuel exhaustion, the inner layer is the propagated
exception of `Trace.truthValue`. -/
def step (x : Option (Option (Bool × Bool)))
    (k : Bool × Bool → Option (Option (Bool × Bool))) :
    Option (Option (Bool × Bool)) :=
  match x with
  | none => none
  | some none => some none
  | some (some p) => k p

/-- Fuel-indexed variant of `Trace.truthValue`, case for case identical to
it but recursing on an explicit fuel counter, so that it is structural and
computable by the kernel.  The outer `none` means the fuel ran out;
`some r` means the recursion completed with `Trace.truthValue` result `r`.
Used to express termination of the evaluator and to evaluate it on
concrete inputs. -/
def evalF (tr : Trace) : Nat → PLTLFormula → Nat → Bool → Option (Option (Bool × Bool))
  | 0, _, _, _ => none
  | n + 1, f, i, s =>
    match f with
    | .O g =>
      step (evalF tr n g i s) fun (v, s1) =>
        if 0 < i then
          step (evalF tr n (.O g) (pre i).toNat s1) fun (ov, s2) =>
            some (some (v || ov, s2))
        else some (some (v, s1))
    | .H g =>
      step (evalF tr n g i s) fun (v, s1) =>
        if 0 < i then
          step (evalF tr n (.H g) (pre i).toNat s1) fun (hv, s2) =>
            some (some (v && hv, s2))
        else some (some (v, s1))
    | .nt g =>
      step (evalF tr n g i s) fun (v, s1) => some (some (!v, s1))
    | .Y g =>
      if 0 < i then evalF tr n g (pre i).toNat s else some (some (false, s))
    | .S a b =>
      step (evalF tr n b i s) fun (gv, s1) =>
        if 0 < i then
          step (evalF tr n a i s1) fun (v, s2) =>
            step (evalF tr n (.S a b) (pre i).toNat s2) fun (sv, s3) =>
              some (some (gv || (v && sv), s3))
        else some (some (gv, s1))
    | .X g =>
      if tr.next1 i = -1 then some (some (false, s))
      else evalF tr n g (tr.next1 i).toNat s
    | .U a b =>
      step (evalF tr n a i s) fun (va, s1) =>
        step (evalF tr n b i s1) fun (vb, s2) =>
          if vb then some (some (true, s2))
          else if va && !vb then
            if (tr.next i (s || s2)).1 = -1 then some (some (false, (tr.next i (s || s2)).2))
            else evalF tr n (.U a b) ((tr.next i (s || s2)).1).toNat (tr.next i (s || s2)).2
          else some (some (false, s2))
    | .F g => evalF tr n (.U .TRUE g) i s
    | .G g => evalF tr n (.nt (.F (.nt g))) i s
    | .andf a b =>
      step (evalF tr n a i s) fun (lv, s1) =>
        step (evalF tr n b i s1) fun (rv, s2) => some (some (lv && rv, s2))
    | .impf a b =>
      step (evalF tr n a i s) fun (lv, s1) =>
        step (evalF tr n b i s1) fun (rv, s2) => some (some (!lv || rv, s2))
    | .orf a b =>
      step (evalF tr n a i s) fun (lv, s1) =>
        step (evalF tr n b i s1) fun (rv, s2) => some (some (lv || rv, s2))
    | .TRUE => some (some (true, s))
    | .FALSE => some (some (false, s))
    | .atom p =>
      match tr.table p i with
      | none => some none
      | some b => some (some (b, s))

/-- Loop-flag state before evaluating index `k` in the run of
`Trace.check_truth` started with flag `s`: the flag is threaded from one
per-index evaluation to the next and never reset. -/
def Trace.loopFlagAt (tr : Trace) (f : PLTLFormula) (s : Bool) : Nat → Option Bool
  | 0 => some s
  | k + 1 =>
    match tr.loopFlagAt f s k with
    | none => none
    | some sk =>
      match tr.truthValue f k sk with
      | none => none
      | some (_, sk1) => some sk1

/-- Value of `f` at index `k` in the threaded run of `Trace.check_truth`
started with flag `s`. -/
def Trace.holdsAtThreaded (tr : Trace) (f : PLTLFormula) (s : Bool) (k : Nat) : Option Bool :=
  match tr.loopFlagAt f s k with
  | none => none
  | some sk =>
    match tr.truthValue f k sk with
    | none => none
    | some (v, _) => some v

/-- Mirrors `Trace.str2bool`: `v.lower() in ("yes", "true", "t", "1")`. -/
def str2bool (v : List Char) : Bool :=
  [['y', 'e', 's'], ['t', 'r', 'u', 'e'], ['t'], ['1']].contains (v.map Char.toLower)

/-- Splitting on a separator character, with the semantics of the Python
`str.split(sep)`: empty chunks are kept and splitting an empty string
yields one empty chunk, so the result is never the empty list. -/
def splitOnChar (sep : Char) : List Char → List (List Char)
  | [] => [[]]
  | c :: rest =>
    match splitOnChar sep rest with
    | [] => [[]]
    | chunk :: chunks =>
      if c = sep then [] :: chunk :: chunks else (c :: chunk) :: chunks

/-- Mirrors the Python `data.find` on the colon character: index of the
first occurrence, or `-1` when absent. -/
def findChar (c : Char) (l : List Char) : Int :=
  match l.findIdx? (fun x => x == c) with
  | some n => (n : Int)
  | none => -1

/-- Parse of the lasso-index digits, modelling the Python `int(...)` call
in `Trace.__init__` (which raises `ValueError`, here `none`, on garbage).
Surrounding spaces are stripped as `int` does; only nonnegative decimal
numerals are accepted in this model, which suffices for the `"... :: N"`
trace format the constructor is given. -/
def parseLasso (s : List Char) : Option Nat :=
  let t := ((s.dropWhile (fun c => c == ' ')).reverse.dropWhile (fun c => c == ' ')).reverse
  if t.isEmpty || !(t.all Char.isDigit) then none
  else some (t.foldl (fun acc c => 10 * acc + (c.toNat - 48)) 0)

/-- Mirrors `Trace.__init__(data, Id, Lit)` in `Tracer.py`: find the first
colon; if present, parse the lasso index from the text two characters past
it and keep the part before it as the trace body, otherwise the lasso
defaults to `0`; split the body on semicolons into time steps and each
step on commas into `str2bool` values; `vars` is the width of the first step; literals
default to `p0, p1, ...` when not supplied.  `none` models an exception
escaping the constructor: a failed `int(...)` or an `IndexError` from
`literals[v]` or `traceVector[t][v]` while the truth table is built (the
final guard: the table loop touches `literals[v]` and row position `v`
for every `v < vars` and every row). -/
def mkTrace (data : List Char) (Id : String) (Lit : Option (List String)) : Option Trace :=
  let li := findChar ':' data
  let lassoOpt : Option Nat :=
    if li = -1 then some 0 else parseLasso (data.drop (li.toNat + 2))
  let body := if li = -1 then data else data.take li.toNat
  match lassoOpt with
  | none => none
  | some lasso =>
    let traceVector := (splitOnChar ';' body).map fun ts => (splitOnChar ',' ts).map str2bool
    let vars := (traceVector.headD []).length
    let literals :=
      match Lit with
      | none => (List.range vars).map fun i => "p" ++ toString i
      | some l => l
    if decide (vars ≤ literals.length) && traceVector.all (fun row => decide (vars ≤ row.length)) then
      some ⟨traceVector, lasso, literals, Id⟩
    else none

/-- One-state trace `"1"` over literal `p` (`p` true at state 0, lasso 0). -/
def trOne : Trace := ⟨[[true]], 0, ["p"], "t1"⟩

/-- Two-state trace `"1;0"` over literal `p` (`p` true exactly at state 0,
lasso 0). -/
def trTwo : Trace := ⟨[[true], [false]], 0, ["p"], "t2"⟩

/-- Three-state trace `"1;0;0"` over literal `q` (`q` true exactly at
state 0, lasso 0). -/
def trThree : Trace := ⟨[[true], [false], [false]], 0, ["q"], "t3"⟩

/-- Two-state trace `"0,1;0,0"` over literals `p, q` (`p` false everywhere,
`q` true exactly at state 0, lasso 0). -/
def trPQ : Trace := ⟨[[false, true], [false, false]], 0, ["p", "q"], "t4"⟩

/-- One-step unfolding of the `O` case of `Trace.truthValue`. -/
theorem truthValue_O (tr : Trace) (g : PLTLFormula) (i : Nat) (s : Bool) :
    tr.truthValue (.O g) i s =
      match tr.truthValue g i s with
      | none => none
      | some (v, s1) =>
        if 0 < i then
          match tr.truthValue (.O g) (pre i).toNat s1 with
          | none => none
          | some (ov, s2) => some (v || ov, s2)
        else some (v, s1) := by
  rw [Trace.truthValue.eq_def]
  rfl

/-- One-step unfolding of the `H` case of `Trace.truthValue`. -/
theorem truthValue_H (tr : Trace) (g : PLTLFormula) (i : Nat) (s : Bool) :
    tr.truthValue (.H g) i s =
      match tr.truthValue g i s with
      | none => none
      | some (v, s1) =>
        if 0 < i then
          match tr.truthValue (.H g) (pre i).toNat s1 with
          | none => none
          | some (hv, s2) => some (v && hv, s2)
        else some (v, s1) := by
  rw [Trace.truthValue.eq_def]
  rfl

/-- One-step unfolding of the `!` case of `Trace.truthValue`. -/
theorem truthValue_nt (tr : Trace) (g : PLTLFormula) (i : Nat) (s : Bool) :
    tr.truthValue (.nt g) i s =
      match tr.truthValue g i s with
      | none => none
      | some (v, s1) => some (!v, s1) := by
  rw [Trace.truthValue.eq_def]

/-- One-step unfolding of the `Y` case of `Trace.truthValue`. -/
theorem truthValue_Y (tr : Trace) (g : PLTLFormula) (i : Nat) (s : Bool) :
    tr.truthValue (.Y g) i s =
      if 0 < i then tr.truthValue g (pre i).toNat s else some (false, s) := by
  rw [Trace.truthValue.eq_def]
  rfl

/-- One-step unfolding of the `S` case of `Trace.truthValue`. -/
theorem truthValue_S (tr : Trace) (a b : PLTLFormula) (i : Nat) (s : Bool) :
    tr.truthValue (.S a b) i s =
      match tr.truthValue b i s with
      | none => none
      | some (gv, s1) =>
        if 0 < i then
          match tr.truthValue a i s1 with
          | none => none
          | some (v, s2) =>
            match tr.truthValue (.S a b) (pre i).toNat s2 with
            | none => none
            | some (sv, s3) => some (gv || (v && sv), s3)
        else some (gv, s1) := by
  rw [Trace.truthValue.eq_def]
  rfl

/-- One-step unfolding of the `X` case of `Trace.truthValue`. -/
theorem truthValue_X (tr : Trace) (g : PLTLFormula) (i : Nat) (s : Bool) :
    tr.truthValue (.X g) i s =
      if tr.next1 i = -1 then some (false, s)
      else tr.truthValue g (tr.next1 i).toNat s := by
  rw [Trace.truthValue.eq_def]

/-- One-step unfolding of the `U` case of `Trace.truthValue`. -/
theorem truthValue_U (tr : Trace) (a b : PLTLFormula) (i : Nat) (s : Bool) :
    tr.truthValue (.U a b) i s =
      match tr.truthValue a i s with
      | none => none
      | some (va, s1) =>
        match tr.truthValue b i s1 with
        | none => none
        | some (vb, s2) =>
          if vb then some (true, s2)
          else if va && !vb then
            if (tr.next i (s || s2)).1 = -1 then some (false, (tr.next i (s || s2)).2)
            else tr.truthValue (.U a b) ((tr.next i (s || s2)).1).toNat (tr.next i (s || s2)).2
          else some (false, s2) := by
  rw [Trace.truthValue.eq_def]
  rfl

/-- One-step unfolding of the `F` case of `Trace.truthValue`. -/
theorem truthValue_F (tr : Trace) (g : PLTLFormula) (i : Nat) (s : Bool) :
    tr.truthValue (.F g) i s = tr.truthValue (.U .TRUE g) i s := by
  rw [Trace.truthValue.eq_def]

/-- One-step unfolding of the `G` case of `Trace.truthValue`. -/
theorem truthValue_G (tr : Trace) (g : PLTLFormula) (i : Nat) (s : Bool) :
    tr.truthValue (.G g) i s = tr.truthValue (.nt (.F (.nt g))) i s := by
  rw [Trace.truthValue.eq_def]

/-- One-step unfolding of the `&` case of `Trace.truthValue`. -/
theorem truthValue_andf (tr : Trace) (a b : PLTLFormula) (i : Nat) (s : Bool) :
    tr.truthValue (.andf a b) i s =
      match tr.truthValue a i s with
      | none => none
      | some (lv, s1) =>
        match tr.truthValue b i s1 with
        | none => none
        | some (rv, s2) => some (lv && rv, s2) := by
  rw [Trace.truthValue.eq_def]

/-- One-step unfolding of the `=>` case of `Trace.truthValue`. -/
theorem truthValue_impf (tr : Trace) (a b : PLTLFormula) (i : Nat) (s : Bool) :
    tr.truthValue (.impf a b) i s =
      match tr.truthValue a i s with
      | none => none
      | some (lv, s1) =>
        match tr.truthValue b i s1 with
        | none => none
        | some (rv, s2) => some (!lv || rv, s2) := by
  rw [Trace.truthValue.eq_def]

/-- One-step unfolding of the `|` case of `Trace.truthValue`. -/
theorem truthValue_orf (tr : Trace) (a b : PLTLFormula) (i : Nat) (s : Bool) :
    tr.truthValue (.orf a b) i s =
      match tr.truthValue a i s with
      | none => none
      | some (lv, s1) =>
        match tr.truthValue b i s1 with
        | none => none
        | some (rv, s2) => some (lv || rv, s2) := by
  rw [Trace.truthValue.eq_def]

/-- Unfolding of the `TRUE` case of `Trace.truthValue`. -/
theorem truthValue_TRUE (tr : Trace) (i : Nat) (s : Bool) :
    tr.truthValue .TRUE i s = some (true, s) := by
  rw [Trace.truthValue.eq_def]

/-- Unfolding of the `FALSE` case of `Trace.truthValue`. -/
theorem truthValue_FALSE (tr : Trace) (i : Nat) (s : Bool) :
    tr.truthValue .FALSE i s = some (false, s) := by
  rw [Trace.truthValue.eq_def]

/-- Unfolding of the atomic-proposition case of `Trace.truthValue`. -/
theorem truthValue_atom (tr : Trace) (p : String) (i : Nat) (s : Bool) :
    tr.truthValue (.atom p) i s =
      match tr.table p i with
      | none => none
      | some b => some (b, s) := by
  rw [Trace.truthValue.eq_def]

/-- Helper: a `step` whose first component completed successfully runs its
continuation. -/
theorem step_some {x : Option (Option (Bool × Bool))} {v : Bool × Bool}
    {k : Bool × Bool → Option (Option (Bool × Bool))}
    (hm : x = some (some v)) : step x k = k v := by
  rw [hm]
  rfl

/-- Helper: a `step` whose first component raised propagates the error. -/
theorem step_err {x : Option (Option (Bool × Bool))}
    {k : Bool × Bool → Option (Option (Bool × Bool))}
    (hm : x = some none) : step x k = some none := by
  rw [hm]
  rfl

/-- Helper: inversion for a completed `step`. -/
theorem step_eq_some {x : Option (Option (Bool × Bool))}
    {k : Bool × Bool → Option (Option (Bool × Bool))} {r : Option (Bool × Bool)}
    (h : step x k = some r) :
    (x = some none ∧ r = none) ∨ (∃ p, x = some (some p) ∧ k p = some r) := by
  cases x with
  | none => simp [step] at h
  | some o =>
    cases o with
    | none =>
      simp only [step] at h
      exact Or.inl ⟨rfl, by injection h with h2; exact h2.symm⟩
    | some p => exact Or.inr ⟨p, rfl, h⟩

/-- The fuel-indexed evaluator stabilises: for every formula, index and
flag there is a fuel amount past which `evalF` completes and returns the
value of `Trace.truthValue`.  This is the termination statement for the
evaluator: the recursion of `Trace.truthValue` bottoms out after finitely
many steps on every input, for every trace and lasso index. -/
theorem evalF_sufficient (tr : Trace) (f : PLTLFormula) (i : Nat) (s : Bool) :
    ∃ n, ∀ m, n ≤ m → evalF tr m f i s = some (tr.truthValue f i s) := by
  induction f, i, s using Trace.truthValue.induct tr with
  | case1 i s g h ih =>
    obtain ⟨n1, e1⟩ := ih
    refine ⟨n1 + 1, fun m hm => ?_⟩
    obtain ⟨k, rfl⟩ : ∃ k, m = k + 1 := ⟨m - 1, by omega⟩
    have f1 : evalF tr k g i s = some none := by rw [e1 k (by omega), h]
    rw [truthValue_O, h]
    simp only [evalF, step_err f1]
  | case2 i s g v s2 h1 hpos h2 ih1 ih2 =>
    obtain ⟨n1, e1⟩ := ih1
    obtain ⟨n2, e2⟩ := ih2
    refine ⟨n1 + n2 + 1, fun m hm => ?_⟩
    obtain ⟨k, rfl⟩ : ∃ k, m = k + 1 := ⟨m - 1, by omega⟩
    have f1 : evalF tr k g i s = some (some (v, s2)) := by rw [e1 k (by omega), h1]
    have f2 : evalF tr k (.O g) (pre i).toNat s2 = some none := by
      rw [e2 k (by omega), h2]
    rw [truthValue_O, h1]
    simp only [evalF, step_some f1, step_err f2]
    simp [h2, hpos]
  | case3 i s g v s2 h1 hpos ov s21 h2 ih1 ih2 =>
    obtain ⟨n1, e1⟩ := ih1
    obtain ⟨n2, e2⟩ := ih2
    refine ⟨n1 + n2 + 1, fun m hm => ?_⟩
    obtain ⟨k, rfl⟩ : ∃ k, m = k + 1 := ⟨m - 1, by omega⟩
    have f1 : evalF tr k g i s = some (some (v, s2)) := by rw [e1 k (by omega), h1]
    have f2 : evalF tr k (.O g) (pre i).toNat s2 = some (some (ov, s21)) := by
      rw [e2 k (by omega), h2]
    rw [truthValue_O, h1]
    simp only [evalF, step_some f1, step_some f2]
    simp [h2, hpos]
  | case4 i s g v s2 h1 hnp ih1 =>
    obtain ⟨n1, e1⟩ := ih1
    refine ⟨n1 + 1, fun m hm => ?_⟩
    obtain ⟨k, rfl⟩ : ∃ k, m = k + 1 := ⟨m - 1, by omega⟩
    have f1 : evalF tr k g i s = some (some (v, s2)) := by rw [e1 k (by omega), h1]
    rw [truthValue_O, h1]
    simp only [evalF, step_some f1]
    simp [hnp]
  | case5 i s g h ih =>
    obtain ⟨n1, e1⟩ := ih
    refine ⟨n1 + 1, fun m hm => ?_⟩
    obtain ⟨k, rfl⟩ : ∃ k, m = k + 1 := ⟨m - 1, by omega⟩
    have f1 : evalF tr k g i s = some none := by rw [e1 k (by omega), h]
    rw [truthValue_H, h]
    simp only [evalF, step_err f1]
  | case6 i s g v s2 h1 hpos h2 ih1 ih2 =>
    obtain ⟨n1, e1⟩ := ih1
    obtain ⟨n2, e2⟩ := ih2
    refine ⟨n1 + n2 + 1, fun m hm => ?_⟩
    obtain ⟨k, rfl⟩ : ∃ k, m = k + 1 := ⟨m - 1, by omega⟩
    have f1 : evalF tr k g i s = some (some (v, s2)) := by rw [e1 k (by omega), h1]
    have f2 : evalF tr k (.H g) (pre i).toNat s2 = some none := by
      rw [e2 k (by omega), h2]
    rw [truthValue_H, h1]
    simp only [evalF, step_some f1, step_err f2]
    simp [h2, hpos]
  | case7 i s g v s2 h1 hpos ov s21 h2 ih1 ih2 =>
    obtain ⟨n1, e1⟩ := ih1
    obtain ⟨n2, e2⟩ := ih2
    refine ⟨n1 + n2 + 1, fun m hm => ?_⟩
    obtain ⟨k, rfl⟩ : ∃ k, m = k + 1 := ⟨m - 1, by omega⟩
    have f1 : evalF tr k g i s = some (some (v, s2)) := by rw [e1 k (by omega), h1]
    have f2 : evalF tr k (.H g) (pre i).toNat s2 = some (some (ov, s21)) := by
      rw [e2 k (by omega), h2]
    rw [truthValue_H, h1]
    simp only [evalF, step_some f1, step_some f2]
    simp [h2, hpos]
  | case8 i s g v s2 h1 hnp ih1 =>
    obtain ⟨n1, e1⟩ := ih1
    refine ⟨n1 + 1, fun m hm => ?_⟩
    obtain ⟨k, rfl⟩ : ∃ k, m = k + 1 := ⟨m - 1, by omega⟩
    have f1 : evalF tr k g i s = some (some (v, s2)) := by rw [e1 k (by omega), h1]
    rw [truthValue_H, h1]
    simp only [evalF, step_some f1]
    simp [hnp]
  | case9 i s g h ih =>
    obtain ⟨n1, e1⟩ := ih
    refine ⟨n1 + 1, fun m hm => ?_⟩
    obtain ⟨k, rfl⟩ : ∃ k, m = k + 1 := ⟨m - 1, by omega⟩
    have f1 : evalF tr k g i s = some none := by rw [e1 k (by omega), h]
    rw [truthValue_nt, h]
    simp only [evalF, step_err f1]
  | case10 i s g v s2 h1 ih =>
    obtain ⟨n1, e1⟩ := ih
    refine ⟨n1 + 1, fun m hm => ?_⟩
    obtain ⟨k, rfl⟩ : ∃ k, m = k + 1 := ⟨m - 1, by omega⟩
    have f1 : evalF tr k g i s = some (some (v, s2)) := by rw [e1 k (by omega), h1]
    rw [truthValue_nt, h1]
    simp only [evalF, step_some f1]
  | case11 i s g hpos ih =>
    obtain ⟨n1, e1⟩ := ih
    refine ⟨n1 + 1, fun m hm => ?_⟩
    obtain ⟨k, rfl⟩ : ∃ k, m = k + 1 := ⟨m - 1, by omega⟩
    rw [truthValue_Y, if_pos hpos]
    simp only [evalF, if_pos hpos]
    exact e1 k (by omega)
  | case12 i s g hnp =>
    refine ⟨1, fun m hm => ?_⟩
    obtain ⟨k, rfl⟩ : ∃ k, m = k + 1 := ⟨m - 1, by omega⟩
    rw [truthValue_Y, if_neg hnp]
    simp only [evalF, if_neg hnp]
  | case13 i s a b h ih =>
    obtain ⟨n1, e1⟩ := ih
    refine ⟨n1 + 1, fun m hm => ?_⟩
    obtain ⟨k, rfl⟩ : ∃ k, m = k + 1 := ⟨m - 1, by omega⟩
    have f1 : evalF tr k b i s = some none := by rw [e1 k (by omega), h]
    rw [truthValue_S, h]
    simp only [evalF, step_err f1]
  | case14 i s a b gv s2 hb hpos ha ihb iha =>
    obtain ⟨n1, e1⟩ := ihb
    obtain ⟨n2, e2⟩ := iha
    refine ⟨n1 + n2 + 1, fun m hm => ?_⟩
    obtain ⟨k, rfl⟩ : ∃ k, m = k + 1 := ⟨m - 1, by omega⟩
    have f1 : evalF tr k b i s = some (some (gv, s2)) := by rw [e1 k (by omega), hb]
    have f2 : evalF tr k a i s2 = some none := by rw [e2 k (by omega), ha]
    rw [truthValue_S, hb]
    simp only [evalF, step_some f1, step_err f2]
    simp [ha, hpos]
  | case15 i s a b gv s2 hb hpos v s21 ha hrec ihb iha ihrec =>
    obtain ⟨n1, e1⟩ := ihb
    obtain ⟨n2, e2⟩ := iha
    obtain ⟨n3, e3⟩ := ihrec
    refine ⟨n1 + n2 + n3 + 1, fun m hm => ?_⟩
    obtain ⟨k, rfl⟩ : ∃ k, m = k + 1 := ⟨m - 1, by omega⟩
    have f1 : evalF tr k b i s = some (some (gv, s2)) := by rw [e1 k (by omega), hb]
    have f2 : evalF tr k a i s2 = some (some (v, s21)) := by rw [e2 k (by omega), ha]
    have f3 : evalF tr k (.S a b) (pre i).toNat s21 = some none := by
      rw [e3 k (by omega), hrec]
    rw [truthValue_S, hb]
    simp only [evalF, step_some f1, step_some f2, step_err f3]
    simp [ha, hrec, hpos]
  | case16 i s a b gv s2 hb hpos v s21 ha sv s22 hrec ihb iha ihrec =>
    obtain ⟨n1, e1⟩ := ihb
    obtain ⟨n2, e2⟩ := iha
    obtain ⟨n3, e3⟩ := ihrec
    refine ⟨n1 + n2 + n3 + 1, fun m hm => ?_⟩
    obtain ⟨k, rfl⟩ : ∃ k, m = k + 1 := ⟨m - 1, by omega⟩
    have f1 : evalF tr k b i s = some (some (gv, s2)) := by rw [e1 k (by omega), hb]
    have f2 : evalF tr k a i s2 = some (some (v, s21)) := by rw [e2 k (by omega), ha]
    have f3 : evalF tr k (.S a b) (pre i).toNat s21 = some (some (sv, s22)) := by
      rw [e3 k (by omega), hrec]
    rw [truthValue_S, hb]
    simp only [evalF, step_some f1, step_some f2, step_some f3]
    simp [ha, hrec, hpos]
  | case17 i s a b gv s2 hb hnp ihb =>
    obtain ⟨n1, e1⟩ := ihb
    refine ⟨n1 + 1, fun m hm => ?_⟩
    obtain ⟨k, rfl⟩ : ∃ k, m = k + 1 := ⟨m - 1, by omega⟩
    have f1 : evalF tr k b i s = some (some (gv, s2)) := by rw [e1 k (by omega), hb]
    rw [truthValue_S, hb]
    simp only [evalF, step_some f1]
    simp [hnp]
  | case18 i s g nindex h =>
    refine ⟨1, fun m hm => ?_⟩
    obtain ⟨k, rfl⟩ : ∃ k, m = k + 1 := ⟨m - 1, by omega⟩
    have h2 : tr.next1 i = -1 := h
    rw [truthValue_X, if_pos h2]
    simp only [evalF, if_pos h2]
  | case19 i s g nindex h ih =>
    obtain ⟨n1, e1⟩ := ih
    refine ⟨n1 + 1, fun m hm => ?_⟩
    obtain ⟨k, rfl⟩ : ∃ k, m = k + 1 := ⟨m - 1, by omega⟩
    have h2 : ¬tr.next1 i = -1 := h
    rw [truthValue_X, if_neg h2]
    simp only [evalF, if_neg h2]
    exact e1 k (by omega)
  | case20 i s a b ha iha =>
    obtain ⟨n1, e1⟩ := iha
    refine ⟨n1 + 1, fun m hm => ?_⟩
    obtain ⟨k, rfl⟩ : ∃ k, m = k + 1 := ⟨m - 1, by omega⟩
    have f1 : evalF tr k a i s = some none := by rw [e1 k (by omega), ha]
    rw [truthValue_U, ha]
    simp only [evalF, step_err f1]
  | case21 i s a b va s2 ha hb iha ihb =>
    obtain ⟨n1, e1⟩ := iha
    obtain ⟨n2, e2⟩ := ihb
    refine ⟨n1 + n2 + 1, fun m hm => ?_⟩
    obtain ⟨k, rfl⟩ : ∃ k, m = k + 1 := ⟨m - 1, by omega⟩
    have f1 : evalF tr k a i s = some (some (va, s2)) := by rw [e1 k (by omega), ha]
    have f2 : evalF tr k b i s2 = some none := by rw [e2 k (by omega), hb]
    rw [truthValue_U, ha]
    simp only [evalF, step_some f1, step_err f2]
    simp [hb]
  | case22 i s a b va s2 ha s21 hb iha ihb =>
    obtain ⟨n1, e1⟩ := iha
    obtain ⟨n2, e2⟩ := ihb
    refine ⟨n1 + n2 + 1, fun m hm => ?_⟩
    obtain ⟨k, rfl⟩ : ∃ k, m = k + 1 := ⟨m - 1, by omega⟩
    have f1 : evalF tr k a i s = some (some (va, s2)) := by rw [e1 k (by omega), ha]
    have f2 : evalF tr k b i s2 = some (some (true, s21)) := by rw [e2 k (by omega), hb]
    rw [truthValue_U, ha]
    simp only [evalF, step_some f1, step_some f2]
    simp [hb]
  | case23 i s a b va s2 ha vb s21 hb hbf hav nindex hnext iha ihb =>
    obtain ⟨n1, e1⟩ := iha
    obtain ⟨n2, e2⟩ := ihb
    refine ⟨n1 + n2 + 1, fun m hm => ?_⟩
    obtain ⟨k, rfl⟩ : ∃ k, m = k + 1 := ⟨m - 1, by omega⟩
    have f1 : evalF tr k a i s = some (some (va, s2)) := by rw [e1 k (by omega), ha]
    have f2 : evalF tr k b i s2 = some (some (vb, s21)) := by rw [e2 k (by omega), hb]
    have hbf2 : vb = false := by simpa using hbf
    subst hbf2
    have hne2 : (tr.next i (s || s21)).1 = -1 := hnext
    have hva : va = true := by simpa using hav
    subst hva
    rw [truthValue_U, ha]
    simp only [evalF, step_some f1, step_some f2]
    simp [hb, hne2]
  | case24 i s a b va s2 ha vb s21 hb hbf hav nindex s3 hne iha ihb ihrec =>
    obtain ⟨n1, e1⟩ := iha
    obtain ⟨n2, e2⟩ := ihb
    obtain ⟨n3, e3⟩ := ihrec
    refine ⟨n1 + n2 + n3 + 1, fun m hm => ?_⟩
    obtain ⟨k, rfl⟩ : ∃ k, m = k + 1 := ⟨m - 1, by omega⟩
    have f1 : evalF tr k a i s = some (some (va, s2)) := by rw [e1 k (by omega), ha]
    have f2 : evalF tr k b i s2 = some (some (vb, s21)) := by rw [e2 k (by omega), hb]
    have hbf2 : vb = false := by simpa using hbf
    subst hbf2
    have hne2 : ¬(tr.next i (s || s21)).1 = -1 := hne
    have hva : va = true := by simpa using hav
    subst hva
    have e3k : evalF tr k (.U a b) ((tr.next i (s || s21)).1).toNat (tr.next i (s || s21)).2 =
        some (tr.truthValue (.U a b) ((tr.next i (s || s21)).1).toNat (tr.next i (s || s21)).2) :=
      e3 k (by omega)
    rw [truthValue_U, ha]
    simp only [evalF, step_some f1, step_some f2]
    simp [hb, hne2, e3k]
  | case25 i s a b va s2 ha vb s21 hb hbf hno iha ihb =>
    obtain ⟨n1, e1⟩ := iha
    obtain ⟨n2, e2⟩ := ihb
    refine ⟨n1 + n2 + 1, fun m hm => ?_⟩
    obtain ⟨k, rfl⟩ : ∃ k, m = k + 1 := ⟨m - 1, by omega⟩
    have f1 : evalF tr k a i s = some (some (va, s2)) := by rw [e1 k (by omega), ha]
    have f2 : evalF tr k b i s2 = some (some (vb, s21)) := by rw [e2 k (by omega), hb]
    have hbf2 : vb = false := by simpa using hbf
    subst hbf2
    have hva : va = false := by simpa using hno
    subst hva
    rw [truthValue_U, ha]
    simp only [evalF, step_some f1, step_some f2]
    simp [hb]
  | case26 i s g ih =>
    obtain ⟨n1, e1⟩ := ih
    refine ⟨n1 + 1, fun m hm => ?_⟩
    obtain ⟨k, rfl⟩ : ∃ k, m = k + 1 := ⟨m - 1, by omega⟩
    rw [truthValue_F]
    simp only [evalF]
    exact e1 k (by omega)
  | case27 i s g ih =>
    obtain ⟨n1, e1⟩ := ih
    refine ⟨n1 + 1, fun m hm => ?_⟩
    obtain ⟨k, rfl⟩ : ∃ k, m = k + 1 := ⟨m - 1, by omega⟩
    rw [truthValue_G]
    simp only [evalF]
    exact e1 k (by omega)
  | case28 i s a b ha iha =>
    obtain ⟨n1, e1⟩ := iha
    refine ⟨n1 + 1, fun m hm => ?_⟩
    obtain ⟨k, rfl⟩ : ∃ k, m = k + 1 := ⟨m - 1, by omega⟩
    have f1 : evalF tr k a i s = some none := by rw [e1 k (by omega), ha]
    rw [truthValue_andf, ha]
    simp only [evalF, step_err f1]
  | case29 i s a b lv s2 ha hb iha ihb =>
    obtain ⟨n1, e1⟩ := iha
    obtain ⟨n2, e2⟩ := ihb
    refine ⟨n1 + n2 + 1, fun m hm => ?_⟩
    obtain ⟨k, rfl⟩ : ∃ k, m = k + 1 := ⟨m - 1, by omega⟩
    have f1 : evalF tr k a i s = some (some (lv, s2)) := by rw [e1 k (by omega), ha]
    have f2 : evalF tr k b i s2 = some none := by rw [e2 k (by omega), hb]
    rw [truthValue_andf, ha]
    simp only [evalF, step_some f1, step_err f2]
    simp [hb]
  | case30 i s a b lv s2 ha rv s21 hb iha ihb =>
    obtain ⟨n1, e1⟩ := iha
    obtain ⟨n2, e2⟩ := ihb
    refine ⟨n1 + n2 + 1, fun m hm => ?_⟩
    obtain ⟨k, rfl⟩ : ∃ k, m = k + 1 := ⟨m - 1, by omega⟩
    have f1 : evalF tr k a i s = some (some (lv, s2)) := by rw [e1 k (by omega), ha]
    have f2 : evalF tr k b i s2 = some (some (rv, s21)) := by rw [e2 k (by omega), hb]
    rw [truthValue_andf, ha]
    simp only [evalF, step_some f1, step_some f2]
    simp [hb]
  | case31 i s a b ha iha =>
    obtain ⟨n1, e1⟩ := iha
    refine ⟨n1 + 1, fun m hm => ?_⟩
    obtain ⟨k, rfl⟩ : ∃ k, m = k + 1 := ⟨m - 1, by omega⟩
    have f1 : evalF tr k a i s = some none := by rw [e1 k (by omega), ha]
    rw [truthValue_impf, ha]
    simp only [evalF, step_err f1]
  | case32 i s a b lv s2 ha hb iha ihb =>
    obtain ⟨n1, e1⟩ := iha
    obtain ⟨n2, e2⟩ := ihb
    refine ⟨n1 + n2 + 1, fun m hm => ?_⟩
    obtain ⟨k, rfl⟩ : ∃ k, m = k + 1 := ⟨m - 1, by omega⟩
    have f1 : evalF tr k a i s = some (some (lv, s2)) := by rw [e1 k (by omega), ha]
    have f2 : evalF tr k b i s2 = some none := by rw [e2 k (by omega), hb]
    rw [truthValue_impf, ha]
    simp only [evalF, step_some f1, step_err f2]
    simp [hb]
  | case33 i s a b lv s2 ha rv s21 hb iha ihb =>
    obtain ⟨n1, e1⟩ := iha
    obtain ⟨n2, e2⟩ := ihb
    refine ⟨n1 + n2 + 1, fun m hm => ?_⟩
    obtain ⟨k, rfl⟩ : ∃ k, m = k + 1 := ⟨m - 1, by omega⟩
    have f1 : evalF tr k a i s = some (some (lv, s2)) := by rw [e1 k (by omega), ha]
    have f2 : evalF tr k b i s2 = some (some (rv, s21)) := by rw [e2 k (by omega), hb]
    rw [truthValue_impf, ha]
    simp only [evalF, step_some f1, step_some f2]
    simp [hb]
  | case34 i s a b ha iha =>
    obtain ⟨n1, e1⟩ := iha
    refine ⟨n1 + 1, fun m hm => ?_⟩
    obtain ⟨k, rfl⟩ : ∃ k, m = k + 1 := ⟨m - 1, by omega⟩
    have f1 : evalF tr k a i s = some none := by rw [e1 k (by omega), ha]
    rw [truthValue_orf, ha]
    simp only [evalF, step_err f1]
  | case35 i s a b lv s2 ha hb iha ihb =>
    obtain ⟨n1, e1⟩ := iha
    obtain ⟨n2, e2⟩ := ihb
    refine ⟨n1 + n2 + 1, fun m hm => ?_⟩
    obtain ⟨k, rfl⟩ : ∃ k, m = k + 1 := ⟨m - 1, by omega⟩
    have f1 : evalF tr k a i s = some (some (lv, s2)) := by rw [e1 k (by omega), ha]
    have f2 : evalF tr k b i s2 = some none := by rw [e2 k (by omega), hb]
    rw [truthValue_orf, ha]
    simp only [evalF, step_some f1, step_err f2]
    simp [hb]
  | case36 i s a b lv s2 ha rv s21 hb iha ihb =>
    obtain ⟨n1, e1⟩ := iha
    obtain ⟨n2, e2⟩ := ihb
    refine ⟨n1 + n2 + 1, fun m hm => ?_⟩
    obtain ⟨k, rfl⟩ : ∃ k, m = k + 1 := ⟨m - 1, by omega⟩
    have f1 : evalF tr k a i s = some (some (lv, s2)) := by rw [e1 k (by omega), ha]
    have f2 : evalF tr k b i s2 = some (some (rv, s21)) := by rw [e2 k (by omega), hb]
    rw [truthValue_orf, ha]
    simp only [evalF, step_some f1, step_some f2]
    simp [hb]
  | case37 i s =>
    refine ⟨1, fun m hm => ?_⟩
    obtain ⟨k, rfl⟩ : ∃ k, m = k + 1 := ⟨m - 1, by omega⟩
    rw [truthValue_TRUE]
    simp only [evalF]
  | case38 i s =>
    refine ⟨1, fun m hm => ?_⟩
    obtain ⟨k, rfl⟩ : ∃ k, m = k + 1 := ⟨m - 1, by omega⟩
    rw [truthValue_FALSE]
    simp only [evalF]
  | case39 i s p h =>
    refine ⟨1, fun m hm => ?_⟩
    obtain ⟨k, rfl⟩ : ∃ k, m = k + 1 := ⟨m - 1, by omega⟩
    rw [truthValue_atom, h]
    simp only [evalF, h]
  | case40 i s p b h =>
    refine ⟨1, fun m hm => ?_⟩
    obtain ⟨k, rfl⟩ : ∃ k, m = k + 1 := ⟨m - 1, by omega⟩
    rw [truthValue_atom, h]
    simp only [evalF, h]

/-- Soundness of the fuel-indexed evaluator: whenever `evalF` completes
within its fuel, its result is the value of `Trace.truthValue`.  Together
with `evalF_sufficient` this lets concrete runs of the evaluator be
computed by the kernel. -/
theorem evalF_sound (tr : Trace) :
    ∀ (n : Nat) (f : PLTLFormula) (i : Nat) (s : Bool) (r : Option (Bool × Bool)),
      evalF tr n f i s = some r → tr.truthValue f i s = r := by
  intro n
  induction n with
  | zero =>
    intro f i s r h
    simp [evalF] at h
  | succ n ih =>
    intro f i s r h
    cases f with
    | O g =>
      rw [truthValue_O]
      simp only [evalF] at h
      rcases step_eq_some h with ⟨hx, rfl⟩ | ⟨⟨v, s1⟩, hx, hk⟩
      · rw [ih _ _ _ _ hx]
      · by_cases hp : 0 < i
        · rw [if_pos hp] at hk
          rcases step_eq_some hk with ⟨hy, rfl⟩ | ⟨⟨ov, s2⟩, hy, hk2⟩
          · simp [ih _ _ _ _ hx, ih _ _ _ _ hy, hp]
          · injection hk2 with hk2
            subst hk2
            simp [ih _ _ _ _ hx, ih _ _ _ _ hy, hp]
        · rw [if_neg hp] at hk
          injection hk with hk
          subst hk
          simp [ih _ _ _ _ hx, hp]
    | H g =>
      rw [truthValue_H]
      simp only [evalF] at h
      rcases step_eq_some h with ⟨hx, rfl⟩ | ⟨⟨v, s1⟩, hx, hk⟩
      · rw [ih _ _ _ _ hx]
      · by_cases hp : 0 < i
        · rw [if_pos hp] at hk
          rcases step_eq_some hk with ⟨hy, rfl⟩ | ⟨⟨hv, s2⟩, hy, hk2⟩
          · simp [ih _ _ _ _ hx, ih _ _ _ _ hy, hp]
          · injection hk2 with hk2
            subst hk2
            simp [ih _ _ _ _ hx, ih _ _ _ _ hy, hp]
        · rw [if_neg hp] at hk
          injection hk with hk
          subst hk
          simp [ih _ _ _ _ hx, hp]
    | nt g =>
      rw [truthValue_nt]
      simp only [evalF] at h
      rcases step_eq_some h with ⟨hx, rfl⟩ | ⟨⟨v, s1⟩, hx, hk⟩
      · rw [ih _ _ _ _ hx]
      · injection hk with hk
        subst hk
        simp [ih _ _ _ _ hx]
    | Y g =>
      rw [truthValue_Y]
      simp only [evalF] at h
      by_cases hp : 0 < i
      · rw [if_pos hp] at h
        rw [if_pos hp]
        exact ih _ _ _ _ h
      · rw [if_neg hp] at h
        injection h with h
        subst h
        rw [if_neg hp]
    | S a b =>
      rw [truthValue_S]
      simp only [evalF] at h
      rcases step_eq_some h with ⟨hx, rfl⟩ | ⟨⟨gv, s1⟩, hx, hk⟩
      · rw [ih _ _ _ _ hx]
      · by_cases hp : 0 < i
        · rw [if_pos hp] at hk
          rcases step_eq_some hk with ⟨hy, rfl⟩ | ⟨⟨v, s2⟩, hy, hk2⟩
          · simp [ih _ _ _ _ hx, ih _ _ _ _ hy, hp]
          · rcases step_eq_some hk2 with ⟨hz, rfl⟩ | ⟨⟨sv, s3⟩, hz, hk3⟩
            · simp [ih _ _ _ _ hx, ih _ _ _ _ hy, ih _ _ _ _ hz, hp]
            · injection hk3 with hk3
              subst hk3
              simp [ih _ _ _ _ hx, ih _ _ _ _ hy, ih _ _ _ _ hz, hp]
        · rw [if_neg hp] at hk
          injection hk with hk
          subst hk
          simp [ih _ _ _ _ hx, hp]
    | X g =>
      rw [truthValue_X]
      simp only [evalF] at h
      by_cases hc : tr.next1 i = -1
      · rw [if_pos hc] at h
        injection h with h
        subst h
        rw [if_pos hc]
      · rw [if_neg hc] at h
        rw [if_neg hc]
        exact ih _ _ _ _ h
    | U a b =>
      rw [truthValue_U]
      simp only [evalF] at h
      rcases step_eq_some h with ⟨hx, rfl⟩ | ⟨⟨va, s1⟩, hx, hk⟩
      · rw [ih _ _ _ _ hx]
      · rcases step_eq_some hk with ⟨hy, rfl⟩ | ⟨⟨vb, s2⟩, hy, hk2⟩
        · simp [ih _ _ _ _ hx, ih _ _ _ _ hy]
        · cases vb with
          | true =>
            simp only [if_pos] at hk2
            simp at hk2
            subst hk2
            simp [ih _ _ _ _ hx, ih _ _ _ _ hy]
          | false =>
            cases va with
            | false =>
              simp at hk2
              subst hk2
              simp [ih _ _ _ _ hx, ih _ _ _ _ hy]
            | true =>
              by_cases hc : (tr.next i (s || s2)).1 = -1
              · simp [hc] at hk2
                subst hk2
                simp [ih _ _ _ _ hx, ih _ _ _ _ hy, hc]
              · simp [hc] at hk2
                have hrec := ih _ _ _ _ hk2
                simp [ih _ _ _ _ hx, ih _ _ _ _ hy, hc, hrec]
    | F g =>
      rw [truthValue_F]
      simp only [evalF] at h
      exact ih _ _ _ _ h
    | G g =>
      rw [truthValue_G]
      simp only [evalF] at h
      exact ih _ _ _ _ h
    | andf a b =>
      rw [truthValue_andf]
      simp only [evalF] at h
      rcases step_eq_some h with ⟨hx, rfl⟩ | ⟨⟨lv, s1⟩, hx, hk⟩
      · rw [ih _ _ _ _ hx]
      · rcases step_eq_some hk with ⟨hy, rfl⟩ | ⟨⟨rv, s2⟩, hy, hk2⟩
        · simp [ih _ _ _ _ hx, ih _ _ _ _ hy]
        · injection hk2 with hk2
          subst hk2
          simp [ih _ _ _ _ hx, ih _ _ _ _ hy]
    | impf a b =>
      rw [truthValue_impf]
      simp only [evalF] at h
      rcases step_eq_some h with ⟨hx, rfl⟩ | ⟨⟨lv, s1⟩, hx, hk⟩
      · rw [ih _ _ _ _ hx]
      · rcases step_eq_some hk with ⟨hy, rfl⟩ | ⟨⟨rv, s2⟩, hy, hk2⟩
        · simp [ih _ _ _ _ hx, ih _ _ _ _ hy]
        · injection hk2 with hk2
          subst hk2
          simp [ih _ _ _ _ hx, ih _ _ _ _ hy]
    | orf a b =>
      rw [truthValue_orf]
      simp only [evalF] at h
      rcases step_eq_some h with ⟨hx, rfl⟩ | ⟨⟨lv, s1⟩, hx, hk⟩
      · rw [ih _ _ _ _ hx]
      · rcases step_eq_some hk with ⟨hy, rfl⟩ | ⟨⟨rv, s2⟩, hy, hk2⟩
        · simp [ih _ _ _ _ hx, ih _ _ _ _ hy]
        · injection hk2 with hk2
          subst hk2
          simp [ih _ _ _ _ hx, ih _ _ _ _ hy]
    | TRUE =>
      simp only [evalF] at h
      injection h with h
      subst h
      rw [truthValue_TRUE]
    | FALSE =>
      simp only [evalF] at h
      injection h with h
      subst h
      rw [truthValue_FALSE]
    | atom p =>
      rw [truthValue_atom]
      simp only [evalF] at h
      cases ht : tr.table p i with
      | none =>
        rw [ht] at h
        injection h with h
      | some b =>
        rw [ht] at h
        injection h with h

/-- The successor function leaves the loop flag set once it is set. -/
theorem next_flag_true (tr : Trace) (i : Nat) : (tr.next i true).2 = true := by
  simp only [Trace.next]
  split
  · rfl
  · split
    · rfl
    · rfl

/-- Fuel-indexed form of loop-flag monotonicity: an evaluation entered with
the flag set leaves it set. -/
theorem evalF_loop_mono (tr : Trace) :
    ∀ (n : Nat) (f : PLTLFormula) (i : Nat) (v s1 : Bool),
      evalF tr n f i true = some (some (v, s1)) → s1 = true := by
  intro n
  induction n with
  | zero =>
    intro f i v s1 h
    simp [evalF] at h
  | succ n ih =>
    intro f i v s1 h
    cases f with
    | O g =>
      simp only [evalF] at h
      rcases step_eq_some h with ⟨hx, hc⟩ | ⟨⟨v0, s0⟩, hx, hk⟩
      · simp at hc
      · obtain rfl : s0 = true := ih _ _ _ _ hx
        by_cases hp : 0 < i
        · rw [if_pos hp] at hk
          rcases step_eq_some hk with ⟨hy, hc⟩ | ⟨⟨ov, s2⟩, hy, hk2⟩
          · simp at hc
          · obtain rfl : s2 = true := ih _ _ _ _ hy
            injection hk2 with hk2
            injection hk2 with hk2
            exact congrArg Prod.snd hk2.symm
        · rw [if_neg hp] at hk
          injection hk with hk
          injection hk with hk
          exact (congrArg Prod.snd hk.symm)
    | H g =>
      simp only [evalF] at h
      rcases step_eq_some h with ⟨hx, hc⟩ | ⟨⟨v0, s0⟩, hx, hk⟩
      · simp at hc
      · obtain rfl : s0 = true := ih _ _ _ _ hx
        by_cases hp : 0 < i
        · rw [if_pos hp] at hk
          rcases step_eq_some hk with ⟨hy, hc⟩ | ⟨⟨hv, s2⟩, hy, hk2⟩
          · simp at hc
          · obtain rfl : s2 = true := ih _ _ _ _ hy
            injection hk2 with hk2
            injection hk2 with hk2
            exact (congrArg Prod.snd hk2.symm)
        · rw [if_neg hp] at hk
          injection hk with hk
          injection hk with hk
          exact (congrArg Prod.snd hk.symm)
    | nt g =>
      simp only [evalF] at h
      rcases step_eq_some h with ⟨hx, hc⟩ | ⟨⟨v0, s0⟩, hx, hk⟩
      · simp at hc
      · obtain rfl : s0 = true := ih _ _ _ _ hx
        injection hk with hk
        injection hk with hk
        exact (congrArg Prod.snd hk.symm)
    | Y g =>
      simp only [evalF] at h
      by_cases hp : 0 < i
      · rw [if_pos hp] at h
        exact ih _ _ _ _ h
      · rw [if_neg hp] at h
        injection h with h
        injection h with h
        exact (congrArg Prod.snd h.symm)
    | S a b =>
      simp only [evalF] at h
      rcases step_eq_some h with ⟨hx, hc⟩ | ⟨⟨gv, s0⟩, hx, hk⟩
      · simp at hc
      · obtain rfl : s0 = true := ih _ _ _ _ hx
        by_cases hp : 0 < i
        · rw [if_pos hp] at hk
          rcases step_eq_some hk with ⟨hy, hc⟩ | ⟨⟨v0, s2⟩, hy, hk2⟩
          · simp at hc
          · obtain rfl : s2 = true := ih _ _ _ _ hy
            rcases step_eq_some hk2 with ⟨hz, hc⟩ | ⟨⟨sv, s3⟩, hz, hk3⟩
            · simp at hc
            · obtain rfl : s3 = true := ih _ _ _ _ hz
              injection hk3 with hk3
              injection hk3 with hk3
              exact (congrArg Prod.snd hk3.symm)
        · rw [if_neg hp] at hk
          injection hk with hk
          injection hk with hk
          exact (congrArg Prod.snd hk.symm)
    | X g =>
      simp only [evalF] at h
      by_cases hc : tr.next1 i = -1
      · rw [if_pos hc] at h
        injection h with h
        injection h with h
        exact (congrArg Prod.snd h.symm)
      · rw [if_neg hc] at h
        exact ih _ _ _ _ h
    | U a b =>
      simp only [evalF] at h
      rcases step_eq_some h with ⟨hx, hc⟩ | ⟨⟨va, s0⟩, hx, hk⟩
      · simp at hc
      · obtain rfl : s0 = true := ih _ _ _ _ hx
        rcases step_eq_some hk with ⟨hy, hc⟩ | ⟨⟨vb, s2⟩, hy, hk2⟩
        · simp at hc
        · obtain rfl : s2 = true := ih _ _ _ _ hy
          simp only [Bool.or_true] at hk2
          cases vb with
          | true =>
            simp at hk2
            exact hk2.2
          | false =>
            cases va with
            | false =>
              simp at hk2
              exact hk2.2
            | true =>
              have hflag := next_flag_true tr i
              by_cases hc : (tr.next i true).1 = -1
              · simp [hc] at hk2
                rw [← hk2.2, hflag]
              · simp [hc] at hk2
                rw [hflag] at hk2
                exact ih _ _ _ _ hk2
    | F g =>
      simp only [evalF] at h
      exact ih _ _ _ _ h
    | G g =>
      simp only [evalF] at h
      exact ih _ _ _ _ h
    | andf a b =>
      simp only [evalF] at h
      rcases step_eq_some h with ⟨hx, hc⟩ | ⟨⟨lv, s0⟩, hx, hk⟩
      · simp at hc
      · obtain rfl : s0 = true := ih _ _ _ _ hx
        rcases step_eq_some hk with ⟨hy, hc⟩ | ⟨⟨rv, s2⟩, hy, hk2⟩
        · simp at hc
        · obtain rfl : s2 = true := ih _ _ _ _ hy
          injection hk2 with hk2
          injection hk2 with hk2
          exact (congrArg Prod.snd hk2.symm)
    | impf a b =>
      simp only [evalF] at h
      rcases step_eq_some h with ⟨hx, hc⟩ | ⟨⟨lv, s0⟩, hx, hk⟩
      · simp at hc
      · obtain rfl : s0 = true := ih _ _ _ _ hx
        rcases step_eq_some hk with ⟨hy, hc⟩ | ⟨⟨rv, s2⟩, hy, hk2⟩
        · simp at hc
        · obtain rfl : s2 = true := ih _ _ _ _ hy
          injection hk2 with hk2
          injection hk2 with hk2
          exact (congrArg Prod.snd hk2.symm)
    | orf a b =>
      simp only [evalF] at h
      rcases step_eq_some h with ⟨hx, hc⟩ | ⟨⟨lv, s0⟩, hx, hk⟩
      · simp at hc
      · obtain rfl : s0 = true := ih _ _ _ _ hx
        rcases step_eq_some hk with ⟨hy, hc⟩ | ⟨⟨rv, s2⟩, hy, hk2⟩
        · simp at hc
        · obtain rfl : s2 = true := ih _ _ _ _ hy
          injection hk2 with hk2
          injection hk2 with hk2
          exact (congrArg Prod.snd hk2.symm)
    | TRUE =>
      simp only [evalF] at h
      injection h with h
      injection h with h
      exact (congrArg Prod.snd h.symm)
    | FALSE =>
      simp only [evalF] at h
      injection h with h
      injection h with h
      exact (congrArg Prod.snd h.symm)
    | atom p =>
      simp only [evalF] at h
      cases ht : tr.table p i with
      | none =>
        rw [ht] at h
        simp at h
      | some b =>
        rw [ht] at h
        injection h with h
        injection h with h
        exact (congrArg Prod.snd h.symm)

/-- Loop-flag monotonicity for the evaluator: the flag is only ever set,
never cleared, so the flag after a completed evaluation absorbs the flag
before it.  This justifies writing `s || s2` for the current flag in the
`U` case of `Trace.truthValue`. -/
theorem truthValue_loop_mono (tr : Trace) (f : PLTLFormula) (i : Nat) (s v s1 : Bool)
    (h : tr.truthValue f i s = some (v, s1)) : (s || s1) = s1 := by
  cases s with
  | false => rfl
  | true =>
    obtain ⟨n, hn⟩ := evalF_sufficient tr f i true
    have hfe : evalF tr n f i true = some (some (v, s1)) := by rw [hn n le_rfl, h]
    rw [evalF_loop_mono tr n f i v s1 hfe]
    rfl

/-- Splitting never yields an empty list of chunks (Python `str.split`). -/
theorem splitOnChar_ne_nil (sep : Char) (l : List Char) : splitOnChar sep l ≠ [] := by
  cases l with
  | nil => simp [splitOnChar]
  | cons c rest =>
    simp only [splitOnChar]
    cases h : splitOnChar sep rest with
    | nil => simp
    | cons chunk chunks =>
      split <;> first | (split <;> simp) | simp

/-- Every key in the truth table carries a declared literal name. -/
theorem tableEntries_name_mem (tr : Trace) (e : (String × Nat) × Bool)
    (he : e ∈ tr.tableEntries) : e.1.1 ∈ tr.literals := by
  simp only [Trace.tableEntries, List.mem_flatMap] at he
  obtain ⟨t, ht, he2⟩ := he
  simp only [List.mem_filterMap] at he2
  obtain ⟨v, hv, he3⟩ := he2
  cases hlit : tr.literals.get? v with
  | none =>
    rw [hlit] at he3
    simp at he3
  | some name =>
    cases hval : (tr.traceVector.get? t).bind (fun row => row.get? v) with
    | none =>
      rw [hlit, hval] at he3
      simp at he3
    | some bb =>
      rw [hlit, hval] at he3
      injection he3 with he3
      subst he3
      exact List.get?_mem hlit

/-- Loop invariant behind `Trace.check_truth`: running `Trace.checkFrom`
over a contiguous index range, started with the flag the threaded run
reaches at the start of the range, returns `True` exactly when the
threaded per-index value is `true` at every index of the range. -/
theorem checkFrom_range_iff (tr : Trace) (f : PLTLFormula) :
    ∀ (cnt a : Nat) (sa s : Bool), tr.loopFlagAt f s a = some sa →
      ((∃ s1, tr.checkFrom f (List.range' a cnt) sa = some (true, s1))
        ↔ (∀ k, a ≤ k → k < a + cnt → tr.holdsAtThreaded f s k = some true)) := by
  intro cnt
  induction cnt with
  | zero =>
    intro a sa s hfa
    constructor
    · intro _ k hk1 hk2
      omega
    · intro _
      exact ⟨sa, by simp [Trace.checkFrom, List.range']⟩
  | succ cnt ih =>
    intro a sa s hfa
    have hrange : List.range' a (cnt + 1) = a :: List.range' (a + 1) cnt := rfl
    rw [hrange]
    cases hv : tr.truthValue f a sa with
    | none =>
      constructor
      · rintro ⟨s1, hcf⟩
        simp [Trace.checkFrom, hv] at hcf
      · intro hall
        have hk := hall a le_rfl (by omega)
        simp [Trace.holdsAtThreaded, hfa, hv] at hk
    | some p =>
      obtain ⟨v, s1⟩ := p
      cases v with
      | false =>
        constructor
        · rintro ⟨sx, hcf⟩
          simp [Trace.checkFrom, hv] at hcf
        · intro hall
          have hk := hall a le_rfl (by omega)
          simp [Trace.holdsAtThreaded, hfa, hv] at hk
      | true =>
        have hfa1 : tr.loopFlagAt f s (a + 1) = some s1 := by
          simp [Trace.loopFlagAt, hfa, hv]
        have hrec := ih (a + 1) s1 s hfa1
        constructor
        · rintro ⟨sx, hcf⟩
          simp only [Trace.checkFrom, hv, Bool.not_true, Bool.false_eq_true,
            if_false] at hcf
          intro k hk1 hk2
          rcases eq_or_lt_of_le hk1 with rfl | hk
          · simp [Trace.holdsAtThreaded, hfa, hv]
          · exact (hrec.mp ⟨sx, hcf⟩) k (by omega) (by omega)
        · intro hall
          obtain ⟨sx, hcf⟩ := hrec.mpr (fun k hk1 hk2 => hall k (by omega) (by omega))
          refine ⟨sx, ?_⟩
          simp only [Trace.checkFrom, hv, Bool.not_true, Bool.false_eq_true, if_false]
          exact hcf

/-- C1: the index successor function `next(i)` on a trace of length `N`
behaves as: if `i < N - 1` it returns `i + 1` (flag unchanged); otherwise
at `i = N - 1`, if the evaluation-session loop flag is not yet set, it
sets the flag and returns the lasso index; and if the flag is already
set, it returns the sentinel `-1`. -/
theorem claim_next_spec (tr : Trace) (i : Nat) (s : Bool) :
    (i < tr.traceLength - 1 → tr.next i s = ((i : Int) + 1, s))
    ∧ (i = tr.traceLength - 1 →
        ((s = false → tr.next i s = ((tr.lasso : Int), true))
          ∧ (s = true → tr.next i s = (-1, true)))) := by
  refine ⟨fun h => ?_, fun he => ⟨fun hs => ?_, fun hs => ?_⟩⟩
  · simp [Trace.next, h]
  · subst he
    subst hs
    simp [Trace.next]
  · subst he
    subst hs
    simp [Trace.next]

/-- C1 witness: the three behaviours of `next` on the concrete two-state
trace `trTwo`. -/
theorem claim_next_spec_w :
    trTwo.next 0 false = (1, false)
    ∧ trTwo.next 1 false = (0, true)
    ∧ trTwo.next 1 true = (-1, true) :=
  ⟨(claim_next_spec trTwo 0 false).1 (by decide),
    ((claim_next_spec trTwo 1 false).2 (by decide)).1 rfl,
    ((claim_next_spec trTwo 1 true).2 (by decide)).2 rfl⟩

/-- C2 counterexample: at the last index of the one-state trace `trOne`
with the loop flag already set, `X(p)` evaluates to `true`, not `false`:
the `X` case uses the unguarded successor `next1`, which ignores the flag
and never returns `-1`. -/
theorem claim_next_eval_cex :
    trOne.truthValue (.X (.atom "p")) 0 true = some (true, true) :=
  evalF_sound trOne 10 _ 0 true _ (by decide)

/-- C2 (amended): evaluating `X(f)` at `i` uses the UNGUARDED successor
`next1` (not the one-shot-guarded `next`): `next1 i` never equals the
sentinel `-1`, so the `false` branch of the `X` case is dead code, and
`X(f)` at `i` always evaluates `f` at `next1 i` (`i + 1` below the last
index, the lasso index at it) regardless of the loop flag. -/
theorem claim_next_eval (tr : Trace) (f : PLTLFormula) (i : Nat) (s : Bool) :
    ¬tr.next1 i = -1
    ∧ tr.truthValue (.X f) i s = tr.truthValue f (tr.next1 i).toNat s := by
  have hne : ¬tr.next1 i = -1 := by
    simp only [Trace.next1]
    split <;> omega
  exact ⟨hne, by rw [truthValue_X, if_neg hne]⟩

/-- C2 witness: `X(p)` on `trOne` at its last index with the flag set
evaluates `p` at the successor index. -/
theorem claim_next_eval_w :
    trOne.truthValue (.X (.atom "p")) 0 true = trOne.truthValue (.atom "p") 0 true :=
  (claim_next_eval trOne (.atom "p") 0 true).2

/-- C3 counterexample: the one-step unrolling identity read over a common
evaluation state fails.  On `trPQ`, `U(F p, F q)` at index `1` from a clear
flag evaluates to `false`, although its right argument `F q` at index `1`
from the same state evaluates to `true` (and `b` true forces the claimed
right-hand side to `true`): the code evaluates the left argument first and
its lasso traversal sets the shared flag, changing the value of `b`. -/
theorem claim_until_unroll_cex :
    trPQ.truthValue (.U (.F (.atom "p")) (.F (.atom "q"))) 1 false = some (false, true)
    ∧ trPQ.truthValue (.F (.atom "q")) 1 false = some (true, true) :=
  ⟨evalF_sound trPQ 30 _ 1 false _ (by decide),
    evalF_sound trPQ 30 _ 1 false _ (by decide)⟩

/-- C3 (amended): the one-step unrolling identity holds with the session
state threaded in the evaluation order of the code: `a` is evaluated at
`i` first, then `b` in the state `a` left, then (when `b` is false and
`a` is true) `next(i)` runs in the state `b` left and the recursion
continues in the state `next` left.  `U(a,b)` at `i` equals: `b` holds,
or else (`a` holds and `next(i) != -1` and `U(a,b)` holds at `next(i)`). -/
theorem claim_until_unroll (tr : Trace) (a b : PLTLFormula) (i : Nat)
    (s va s1 vb s2 : Bool)
    (ha : tr.truthValue a i s = some (va, s1))
    (hb : tr.truthValue b i s1 = some (vb, s2)) :
    tr.truthValue (.U a b) i s =
      if vb then some (true, s2)
      else if va then
        (if (tr.next i s2).1 = -1 then some (false, (tr.next i s2).2)
         else tr.truthValue (.U a b) ((tr.next i s2).1).toNat (tr.next i s2).2)
      else some (false, s2) := by
  have hm1 : (s || s1) = s1 := truthValue_loop_mono tr a i s va s1 ha
  have hm2 : (s1 || s2) = s2 := truthValue_loop_mono tr b i s1 vb s2 hb
  have hm : (s || s2) = s2 := by
    cases s <;> cases s1 <;> cases s2 <;> simp_all
  rw [truthValue_U]
  simp only [ha]
  simp only [hb]
  simp only [hm]
  cases vb <;> cases va <;> simp

/-- C3 witness: the unrolling identity instantiated on `trOne` with
`a = TRUE`, `b = FALSE` at index `0`. -/
theorem claim_until_unroll_w :
    trOne.truthValue (.U .TRUE .FALSE) 0 false =
      (if (trOne.next 0 false).1 = -1 then some (false, (trOne.next 0 false).2)
       else trOne.truthValue (.U .TRUE .FALSE) ((trOne.next 0 false).1).toNat
         (trOne.next 0 false).2) := by
  have h := claim_until_unroll trOne .TRUE .FALSE 0 false true false false false
    (truthValue_TRUE trOne 0 false) (truthValue_FALSE trOne 0 false)
  simpa using h

/-- C4: evaluation of every formula (in particular every future-operator
formula) terminates on every trace, for every lasso index and flag state:
the fuel-indexed evaluator `evalF` completes once given enough fuel and
agrees with the total evaluator.  In particular `X(FALSE)` evaluates to
`false` at every index. -/
theorem claim_termination :
    (∀ (tr : Trace) (f : PLTLFormula) (i : Nat) (s : Bool),
        ∃ n, ∀ m, n ≤ m → evalF tr m f i s = some (tr.truthValue f i s))
    ∧ (∀ (tr : Trace) (i : Nat) (s : Bool),
        tr.truthValue (.X .FALSE) i s = some (false, s)) := by
  refine ⟨evalF_sufficient, fun tr i s => ?_⟩
  have hne : ¬tr.next1 i = -1 := by
    simp only [Trace.next1]
    split <;> omega
  rw [truthValue_X, if_neg hne, truthValue_FALSE]

/-- C4 witness: `X(FALSE)` terminates with value `false` on `trOne` at its
last index, with the loop flag set. -/
theorem claim_termination_w :
    trOne.truthValue (.X .FALSE) 0 true = some (false, true) :=
  claim_termination.2 trOne 0 true

/-- C5: the derived operators are evaluated through their rewrites and are
exactly equivalent to them: `F(f)` at `i` equals `U(TRUE, f)` at `i`
(value, flag and error agree), and `G(f)` at `i` equals the negation of
`F(!f)` at `i` (the code constructs `!(F(!f))` as fresh nodes). -/
theorem claim_derived_ops (tr : Trace) (f : PLTLFormula) (i : Nat) (s : Bool) :
    tr.truthValue (.F f) i s = tr.truthValue (.U .TRUE f) i s
    ∧ tr.truthValue (.G f) i s =
        Option.map (fun p => (!p.1, p.2)) (tr.truthValue (.F (.nt f)) i s) := by
  constructor
  · rw [truthValue_F]
  · rw [truthValue_G, truthValue_nt]
    cases h : tr.truthValue (.F (.nt f)) i s with
    | none => rfl
    | some p =>
      obtain ⟨v, s1⟩ := p
      rfl

/-- C6 counterexample: `check_truth` is not the conjunction of independent
per-index evaluations.  On `trThree` with `F q`, every per-index
evaluation from a clear flag is `true`, yet `check_truth` from a clear
flag returns `false`: the index-1 evaluation traverses the lasso and sets
the shared flag, and the index-2 evaluation then fails. -/
theorem claim_whole_trace_cex :
    trThree.check_truth (.F (.atom "q")) false = some (false, true)
    ∧ trThree.truthValue (.F (.atom "q")) 0 false = some (true, false)
    ∧ trThree.truthValue (.F (.atom "q")) 1 false = some (true, true)
    ∧ trThree.truthValue (.F (.atom "q")) 2 false = some (true, true) := by
  have t0 : trThree.truthValue (.F (.atom "q")) 0 false = some (true, false) :=
    evalF_sound trThree 40 _ 0 false _ (by decide)
  have t1 : trThree.truthValue (.F (.atom "q")) 1 false = some (true, true) :=
    evalF_sound trThree 40 _ 1 false _ (by decide)
  have t2 : trThree.truthValue (.F (.atom "q")) 2 false = some (true, true) :=
    evalF_sound trThree 40 _ 2 false _ (by decide)
  have t2t : trThree.truthValue (.F (.atom "q")) 2 true = some (false, true) :=
    evalF_sound trThree 40 _ 2 true _ (by decide)
  refine ⟨?_, t0, t1, t2⟩
  have hr : List.range trThree.traceLength = [0, 1, 2] := rfl
  rw [Trace.check_truth, hr]
  simp [Trace.checkFrom, t0, t1, t2t]

/-- C6 (amended): `check_truth(f)` returns `True` exactly when `f` holds
at every index of the threaded run, in which the shared loop flag is
carried from each per-index evaluation into the next (never reset). -/
theorem claim_whole_trace (tr : Trace) (f : PLTLFormula) (s : Bool) :
    (∃ s1, tr.check_truth f s = some (true, s1))
    ↔ (∀ k, k < tr.traceLength → tr.holdsAtThreaded f s k = some true) := by
  have h := checkFrom_range_iff tr f tr.traceLength 0 s s (by simp [Trace.loopFlagAt])
  rw [Trace.check_truth, List.range_eq_range']
  constructor
  · intro hex k hk
    exact h.mp hex k (Nat.zero_le k) (by omega)
  · intro hall
    exact h.mpr (fun k _ hk => hall k (by omega))

/-- C6 witness: the amended equivalence instantiated on `trOne` with the
formula `TRUE`. -/
theorem claim_whole_trace_w :
    trOne.holdsAtThreaded .TRUE false 0 = some true := by
  have hfull : ∃ s1, trOne.check_truth .TRUE false = some (true, s1) := by
    refine ⟨false, ?_⟩
    have hr : List.range trOne.traceLength = [0] := rfl
    rw [Trace.check_truth, hr]
    simp [Trace.checkFrom, truthValue_TRUE]
  exact (claim_whole_trace trOne .TRUE false).mp hfull 0 (by decide)

/-- C7: evaluating an atomic-proposition leaf whose name is not among the
declared literals of the trace fails the query (the table lookup raises,
modelled as `none`) instead of returning `false`. -/
theorem claim_unknown_atom (tr : Trace) (p : String) (i : Nat) (s : Bool)
    (h : p ∉ tr.literals) :
    tr.truthValue (.atom p) i s = none := by
  have htab : tr.table p i = none := by
    rw [Trace.table]
    have hfilter : tr.tableEntries.filter (fun e => e.1 == (p, i)) = [] := by
      rw [List.filter_eq_nil_iff]
      intro e he hmatch
      have hname : e.1.1 ∈ tr.literals := tableEntries_name_mem tr e he
      have : e.1 = (p, i) := by simpa using hmatch
      rw [this] at hname
      exact h hname
    rw [hfilter]
    rfl
  rw [truthValue_atom, htab]

/-- C7 witness: the undeclared atom `q` fails on `trOne` (whose only
literal is `p`). -/
theorem claim_unknown_atom_w :
    trOne.truthValue (.atom "q") 0 false = none :=
  claim_unknown_atom trOne "q" 0 false (by decide)

/-- C8: `Y(f)` at index `0` returns `false` on every trace, for every
formula and flag state, without evaluating `f` at all. -/
theorem claim_yesterday_zero (tr : Trace) (f : PLTLFormula) (s : Bool) :
    tr.truthValue (.Y f) 0 s = some (false, s) := by
  rw [truthValue_Y, if_neg (by omega)]

/-- C9 counterexample: there is no `EmptyTrace` rejection.  The empty
input string, which denotes zero states if anything does, is accepted by
the constructor and yields a one-state trace whose single state holds one
`false` value: `"".split(";")` is `[""]`, a single empty chunk. -/
theorem claim_empty_trace_cex :
    mkTrace [] "t" none = some ⟨[[false]], 0, ["p0"], "t"⟩ := by decide

/-- C9 (amended): the constructor never rejects an input for having zero
states, but no input can produce one either: splitting the body on `;`
always yields at least one time step, so every successfully constructed
trace has length at least 1. -/
theorem claim_trace_length_pos (data : List Char) (Id : String)
    (Lit : Option (List String)) (tr : Trace)
    (h : mkTrace data Id Lit = some tr) : 1 ≤ tr.traceLength := by
  simp only [mkTrace] at h
  repeat' split at h
  all_goals first
    | exact Option.noConfusion h
    | (injection h with h
       subst h
       simp only [Trace.traceLength, List.length_map]
       exact List.length_pos.mpr (splitOnChar_ne_nil ';' _))

/-- C9 witness: the one-character input `"1"` constructs a trace of
length 1. -/
theorem claim_trace_length_pos_w :
    1 ≤ (Trace.mk [[true]] 0 ["p0"] "t").traceLength :=
  claim_trace_length_pos [Char.ofNat 49] "t" none _ (by decide)

/-- C10: `check_truth` does not reset the loop flag and threads one flag
through all per-index evaluations, so its result depends on the flag
value at entry: on `trTwo` with `F p`, a first call entered with the flag
clear returns `True` and leaves the flag set, and a second call entered
with that flag returns `False`. -/
theorem claim_flag_dependence :
    trTwo.check_truth (.F (.atom "p")) false = some (true, true)
    ∧ trTwo.check_truth (.F (.atom "p")) true = some (false, true) := by
  have t0 : trTwo.truthValue (.F (.atom "p")) 0 false = some (true, false) :=
    evalF_sound trTwo 40 _ 0 false _ (by decide)
  have t1 : trTwo.truthValue (.F (.atom "p")) 1 false = some (true, true) :=
    evalF_sound trTwo 40 _ 1 false _ (by decide)
  have t0t : trTwo.truthValue (.F (.atom "p")) 0 true = some (true, true) :=
    evalF_sound trTwo 40 _ 0 true _ (by decide)
  have t1t : trTwo.truthValue (.F (.atom "p")) 1 true = some (false, true) :=
    evalF_sound trTwo 40 _ 1 true _ (by decide)
  have hr : List.range trTwo.traceLength = [0, 1] := rfl
  constructor
  · rw [Trace.check_truth, hr]
    simp [Trace.checkFrom, t0, t1]
  · rw [Trace.check_truth, hr]
    simp [Trace.checkFrom, t0t, t1t]

end Tracer
